import Mathlib

/-!
Verification of the Clifford tableau engine of
`src/qibo/backends/clifford_operations.py` and its generator decoder.

A tableau for an `n`-qubit system is a `(2n+1) × (2n+1)` binary matrix:
rows `0..n-1` are destabilizer generators, rows `n..2n-1` stabilizer
generators, row `2n` is the scratch row; columns `0..n-1` hold the
X-components, columns `n..2n-1` the Z-components, column `2n` the phase
bits.  We embed a numpy array as a total function `Nat → Nat → Bool`; the
live region is rows/columns `0..2n`, entries beyond are phantom and left
untouched by every operation (each embedded operation writes exactly the
entries the corresponding numpy slice assignment writes, for in-range
qubit arguments).
-/

/-- A tableau: `T r c` is the bit at row `r`, column `c`. -/
def Tab : Type := Nat → Nat → Bool

/-- Numeric value of a tableau bit, as used by the integer arithmetic in
`exponent` and `rowsum`. -/
def b2i (b : Bool) : Int := if b then 1 else 0

namespace CliffordOperations

/-- Phase-bit update of `H` (lines 14-20 of the source): on the generator
rows (numpy slice `[:-1]`, i.e. rows `< 2n`) the phase column `2n` is
XORed with `x_q * z_q`; `x_q` is column `q`, `z_q` is column `n + q`. -/
def Hphase (T : Tab) (q n : Nat) : Tab := fun r c =>
  if r < 2 * n ∧ c = 2 * n then xor (T r c) (T r q && T r (n + q)) else T r c

/-- `H(tableau, q, nqubits)` (source lines 12-22): the phase update, then
the swap `new_tab[:, [q, nqubits + q]] = new_tab[:, [nqubits + q, q]]` of
columns `q` and `n + q` across all rows, scratch row included. -/
def H (T : Tab) (q n : Nat) : Tab := fun r c =>
  if c = q then Hphase T q n r (n + q)
  else if c = n + q then Hphase T q n r q
  else Hphase T q n r c

/-- `CNOT(tableau, control_q, target_q, nqubits)` (source lines 24-36):
on rows `< 2n`, the phase column is XORed with
`x_c * z_t * (x_t ^ z_c ^ 1)`, column `target_q` becomes `x_t ^ x_c` and
column `n + control_q` becomes `z_c ^ z_t`, all computed from the
pre-update values (the source reads the views before writing). -/
def CNOT (T : Tab) (control_q target_q n : Nat) : Tab := fun r c =>
  if r < 2 * n then
    if c = 2 * n then
      xor (T r c)
        (T r control_q && T r (n + target_q) &&
          !(xor (T r target_q) (T r (n + control_q))))
    else if c = target_q then xor (T r target_q) (T r control_q)
    else if c = n + control_q then xor (T r (n + control_q)) (T r (n + target_q))
    else T r c
  else T r c

/-- `S(tableau, q, nqubits)` (source lines 38-50): on rows `< 2n` the phase
column is XORed with `x_q * z_q` and column `n + q` becomes `z_q ^ x_q`,
both from the pre-update values. -/
def S (T : Tab) (q n : Nat) : Tab := fun r c =>
  if r < 2 * n then
    if c = 2 * n then xor (T r c) (T r q && T r (n + q))
    else if c = n + q then xor (T r (n + q)) (T r q)
    else T r c
  else T r c

end CliffordOperations

/-- Modelled from the spec: the `n`-qubit zero-state tableau (spec section 6;
the zero-state constructor itself is not among the provided source files).
Destabilizer row `i` is the single-qubit X on qubit `i` (bit in column `i`),
stabilizer row `n + j` is the single-qubit Z on qubit `j` (bit in column
`n + j`), phases and scratch all zero — i.e. the identity on the first `2n`
rows of the live region. -/
def zeroTab (n : Nat) : Tab := fun r c => decide (r = c ∧ r < 2 * n)

theorem H_apply (T : Tab) (q n : Nat) (hq : q < n) (r c : Nat) :
    CliffordOperations.H T q n r c =
      if c = q then T r (n + q)
      else if c = n + q then T r q
      else if r < 2 * n ∧ c = 2 * n then xor (T r c) (T r q && T r (n + q))
      else T r c := by
  have hq2 : ¬(q = 2 * n) := by omega
  have hnq2 : ¬(n + q = 2 * n) := by omega
  have hqnq : ¬(n + q = q) := by omega
  unfold CliffordOperations.H CliffordOperations.Hphase
  by_cases h1 : c = q
  · simp [h1, hnq2]
  · by_cases h2 : c = n + q
    · simp [h1, h2, hq2, hqnq]
    · simp [h1, h2]

/-- C3: applying the Hadamard update twice to the same in-range qubit
returns the original tableau, every entry included (scratch row and
phantom region alike). -/
theorem H_involution (T : Tab) (q n : Nat) (hq : q < n) :
    CliffordOperations.H (CliffordOperations.H T q n) q n = T := by
  have hqnq : ¬(n + q = q) := by omega
  have h2nq : ¬(2 * n = q) := by omega
  have h2nnq : ¬(2 * n = n + q) := by omega
  funext r c
  rw [H_apply _ _ _ hq]
  by_cases h1 : c = q
  · rw [if_pos h1, H_apply _ _ _ hq, if_neg hqnq, if_pos rfl, h1]
  · rw [if_neg h1]
    by_cases h2 : c = n + q
    · rw [if_pos h2, H_apply _ _ _ hq, if_pos rfl, h2]
    · rw [if_neg h2]
      by_cases h3 : r < 2 * n ∧ c = 2 * n
      · obtain ⟨hr, hc⟩ := h3
        subst hc
        rw [if_pos ⟨hr, rfl⟩, H_apply _ _ _ hq, H_apply _ _ _ hq, H_apply _ _ _ hq,
          if_neg h2nq, if_neg h2nnq, if_pos ⟨hr, rfl⟩, if_neg hqnq, if_pos rfl,
          if_pos rfl]
        generalize T r (2 * n) = a
        generalize T r q = b
        generalize T r (n + q) = d
        revert a b d
        decide
      · rw [if_neg h3, H_apply _ _ _ hq, if_neg h1, if_neg h2, if_neg h3]

/-- C3 witness: the involution at the 1-qubit zero tableau. -/
theorem H_involution_witness :
    CliffordOperations.H (CliffordOperations.H (zeroTab 1) 0 1) 0 1 = zeroTab 1 :=
  H_involution (zeroTab 1) 0 1 (by decide)

theorem CNOT_apply (T : Tab) (cq tq n r c : Nat) :
    CliffordOperations.CNOT T cq tq n r c =
      if r < 2 * n then
        if c = 2 * n then
          xor (T r c) (T r cq && T r (n + tq) && !(xor (T r tq) (T r (n + cq))))
        else if c = tq then xor (T r tq) (T r cq)
        else if c = n + cq then xor (T r (n + cq)) (T r (n + tq))
        else T r c
      else T r c := rfl

/-- C4: applying the CNOT update twice with the same in-range, distinct
control and target returns the original tableau. -/
theorem CNOT_involution (T : Tab) (cq tq n : Nat) (hc : cq < n) (ht : tq < n)
    (hne : ¬(cq = tq)) :
    CliffordOperations.CNOT (CliffordOperations.CNOT T cq tq n) cq tq n = T := by
  have h1 : ¬(cq = 2 * n) := by omega
  have h2 : ¬(tq = 2 * n) := by omega
  have h3 : ¬(n + cq = 2 * n) := by omega
  have h4 : ¬(n + tq = 2 * n) := by omega
  have h5 : ¬(tq = n + cq) := by omega
  have h6 : ¬(cq = n + cq) := by omega
  have h7 : ¬(n + tq = n + cq) := by omega
  have h8 : ¬(n + tq = tq) := by omega
  funext r c
  rw [CNOT_apply]
  by_cases hr : r < 2 * n
  · rw [if_pos hr]
    have ecq : CliffordOperations.CNOT T cq tq n r cq = T r cq := by
      rw [CNOT_apply, if_pos hr, if_neg h1, if_neg hne, if_neg h6]
    have etq : CliffordOperations.CNOT T cq tq n r tq = xor (T r tq) (T r cq) := by
      rw [CNOT_apply, if_pos hr, if_neg h2, if_pos rfl]
    have encq : CliffordOperations.CNOT T cq tq n r (n + cq) =
        xor (T r (n + cq)) (T r (n + tq)) := by
      rw [CNOT_apply, if_pos hr, if_neg h3,
        if_neg (fun h => h5 h.symm), if_pos rfl]
    have entq : CliffordOperations.CNOT T cq tq n r (n + tq) = T r (n + tq) := by
      rw [CNOT_apply, if_pos hr, if_neg h4, if_neg h8, if_neg h7]
    by_cases hc2 : c = 2 * n
    · subst hc2
      have e2n : CliffordOperations.CNOT T cq tq n r (2 * n) =
          xor (T r (2 * n))
            (T r cq && T r (n + tq) && !(xor (T r tq) (T r (n + cq)))) := by
        rw [CNOT_apply, if_pos hr, if_pos rfl]
      rw [if_pos rfl, e2n, ecq, etq, encq, entq]
      generalize T r (2 * n) = a
      generalize T r cq = b
      generalize T r tq = d
      generalize T r (n + cq) = e
      generalize T r (n + tq) = f
      revert a b d e f
      decide
    · rw [if_neg hc2]
      by_cases hct : c = tq
      · rw [if_pos hct, etq, ecq, hct]
        generalize T r tq = a
        generalize T r cq = b
        revert a b
        decide
      · rw [if_neg hct]
        by_cases hcn : c = n + cq
        · rw [if_pos hcn, encq, entq, hcn]
          generalize T r (n + cq) = a
          generalize T r (n + tq) = b
          revert a b
          decide
        · rw [if_neg hcn, CNOT_apply, if_pos hr, if_neg hc2,
            if_neg hct, if_neg hcn]
  · rw [if_neg hr, CNOT_apply, if_neg hr]

/-- C4 witness: the involution at the 2-qubit zero tableau with control 0
and target 1. -/
theorem CNOT_involution_witness :
    CliffordOperations.CNOT (CliffordOperations.CNOT (zeroTab 2) 0 1 2) 0 1 2 = zeroTab 2 :=
  CNOT_involution (zeroTab 2) 0 1 2 (by decide) (by decide) (by decide)

namespace CliffordOperations

/-- `exponent(x1, z1, x2, z2)` (source lines 125-137): the per-qubit sign
exponent of the Pauli product, on bit-valued integer inputs; the
`if/elif` ladder of the source is exhaustive on bits. -/
def exponent (x1 z1 x2 z2 : Bool) : Int :=
  if x1 = z1 then
    if x1 = false then 0 else b2i z2 - b2i x2
  else
    if x1 = true then b2i z2 * (2 * b2i x2 - 1)
    else b2i x2 * (1 - 2 * b2i z2)

/-- `nqubits(shape)` (source lines 120-123): `int((shape - 1) / 2)`.  For
`shape ≥ 1` the `int(...)` truncation of the true division agrees with
Nat floor division.  No validation of the `2n+1` form is performed. -/
def nqubits (shape : Nat) : Nat := (shape - 1) / 2

/-- The accumulated phase expression of `rowsum` (source line 149):
`2*new_tab[h,-1] + 2*new_tab[i,-1] + sum of per-qubit exponents`, where
for qubit `j` the exponent arguments are `x1 = x[i,j]`, `z1 = z[i,j]`,
`x2 = x[h,j]`, `z2 = z[h,j]`. -/
def rowsumPhase (T : Tab) (h i n : Nat) : Int :=
  2 * b2i (T h (2 * n)) + 2 * b2i (T i (2 * n)) +
    (Finset.range n).sum fun j =>
      exponent (T i j) (T i (n + j)) (T h j) (T h (n + j))

/-- `rowsum(tableau, h, i, nqubits, include_scratch)` (source lines
139-155): works on a copy, so only row `h` differs from the input.  Row
`h`: the X block (columns `< n`) and Z block (columns `n ≤ c < 2n`) become
the XOR of rows `i` and `h`, and the phase bit (column `2n`) is 0 exactly
when the accumulated phase is `≡ 0 mod 4` (Python `%` and Lean Int `%`
agree for the positive modulus 4).  The `include_scratch` flag only widens
the row extent of the numpy views the source reads through; for the row
indices actually passed it does not change any value read or written, so
it is semantically inert here. -/
def rowsum (T : Tab) (h i n : Nat) (include_scratch : Bool) : Tab := fun r c =>
  if r = h then
    if c < n then xor (T i c) (T h c)
    else if c < 2 * n then xor (T i c) (T h c)
    else if c = 2 * n then
      if rowsumPhase T h i n % 4 = 0 then false else true
    else T r c
  else T r c

end CliffordOperations

/-- The per-qubit exponent table exactly as the claim words it:
`(x1,z1) = (0,0)` gives 0, `(1,1)` gives `z2 - x2`, `(1,0)` gives
`z2*(2*x2 - 1)`, `(0,1)` gives `x2*(1 - 2*z2)`. -/
def g_spec : Bool → Bool → Bool → Bool → Int
  | false, false, _, _ => 0
  | true, true, x2, z2 => b2i z2 - b2i x2
  | true, false, x2, z2 => b2i z2 * (2 * b2i x2 - 1)
  | false, true, x2, z2 => b2i x2 * (1 - 2 * b2i z2)

theorem exponent_eq_g_spec (x1 z1 x2 z2 : Bool) :
    CliffordOperations.exponent x1 z1 x2 z2 = g_spec x1 z1 x2 z2 := by
  cases x1 <;> cases z1 <;> cases x2 <;> cases z2 <;> rfl

/-- C2: `rowsum(T, h, i, n, include_scratch)` leaves every row other than
`h` exactly as in `T`; in row `h` the X components become the XOR of rows
`h` and `i`, the Z components likewise, and the phase bit is 0 precisely
when `2*r_h + 2*r_i + the sum of the four-case exponents g` is `≡ 0 mod 4`
and 1 otherwise. -/
theorem rowsum_spec (T : Tab) (h i n : Nat) (incl : Bool) :
    (∀ r, ¬(r = h) → ∀ c, CliffordOperations.rowsum T h i n incl r c = T r c) ∧
    (∀ j, j < n →
      CliffordOperations.rowsum T h i n incl h j = xor (T h j) (T i j)) ∧
    (∀ j, j < n →
      CliffordOperations.rowsum T h i n incl h (n + j) =
        xor (T h (n + j)) (T i (n + j))) ∧
    (CliffordOperations.rowsum T h i n incl h (2 * n) =
      if (2 * b2i (T h (2 * n)) + 2 * b2i (T i (2 * n)) +
          (Finset.range n).sum fun j =>
            g_spec (T i j) (T i (n + j)) (T h j) (T h (n + j))) % 4 = 0
      then false else true) := by
  refine ⟨fun r hr c => ?_, fun j hj => ?_, fun j hj => ?_, ?_⟩
  · unfold CliffordOperations.rowsum
    rw [if_neg hr]
  · unfold CliffordOperations.rowsum
    rw [if_pos rfl, if_pos hj, Bool.xor_comm]
  · unfold CliffordOperations.rowsum
    have hj1 : ¬(n + j < n) := by omega
    have hj2 : n + j < 2 * n := by omega
    rw [if_pos rfl, if_neg hj1, if_pos hj2, Bool.xor_comm]
  · unfold CliffordOperations.rowsum
    have hn1 : ¬(2 * n < n) := by omega
    have hn2 : ¬(2 * n < 2 * n) := by omega
    rw [if_pos rfl, if_neg hn1, if_neg hn2, if_pos rfl]
    unfold CliffordOperations.rowsumPhase
    simp only [exponent_eq_g_spec]

/-- C2 witness: rowsum on the 1-qubit zero tableau, accumulating stabilizer
row 1 into the scratch row 2 — one instance of each conjunct, with every
hypothesis discharged at a concrete input. -/
theorem rowsum_spec_witness :
    CliffordOperations.rowsum (zeroTab 1) 2 1 1 true 0 0 = zeroTab 1 0 0 ∧
    CliffordOperations.rowsum (zeroTab 1) 2 1 1 true 2 0 =
      xor (zeroTab 1 2 0) (zeroTab 1 1 0) ∧
    CliffordOperations.rowsum (zeroTab 1) 2 1 1 true 2 1 =
      xor (zeroTab 1 2 1) (zeroTab 1 1 1) ∧
    CliffordOperations.rowsum (zeroTab 1) 2 1 1 true 2 2 =
      (if (2 * b2i (zeroTab 1 2 2) + 2 * b2i (zeroTab 1 1 2) +
          (Finset.range 1).sum fun j =>
            g_spec (zeroTab 1 1 j) (zeroTab 1 1 (1 + j)) (zeroTab 1 2 j)
              (zeroTab 1 2 (1 + j))) % 4 = 0
       then false else true) :=
  ⟨(rowsum_spec (zeroTab 1) 2 1 1 true).1 0 (by decide) 0,
   (rowsum_spec (zeroTab 1) 2 1 1 true).2.1 0 (by decide),
   (rowsum_spec (zeroTab 1) 2 1 1 true).2.2.1 0 (by decide),
   (rowsum_spec (zeroTab 1) 2 1 1 true).2.2.2⟩

/-- The state of the Python-level variables during a call `M(state, qubits,
nqubits, collapse)`: `working` is the array currently bound to the local
name `state_copy`, `caller` is the content of the array the caller passed
as `state`, and `aliased` records whether `state_copy` still refers to the
array of the caller.  With `collapse=True` the call starts aliased
(`state_copy = state`); every rebinding `state_copy = self.rowsum(...)`
replaces the working reference by a fresh copy and breaks the alias. -/
structure MSt where
  working : Tab
  caller : Tab
  aliased : Bool

/-- An in-place numpy write (slice assignment): it lands on the working
array, and on the array of the caller exactly when the working reference still
aliases it. -/
def inplace (s : MSt) (f : Tab → Tab) : MSt :=
  ⟨f s.working, if s.aliased then f s.caller else s.caller, s.aliased⟩

/-- Rebinding `state_copy = self.rowsum(...)`: the fresh copy becomes the
working array; the array of the caller is untouched and no longer aliased. -/
def rebind (s : MSt) (T : Tab) : MSt := ⟨T, s.caller, false⟩

/-- `tableau[r0, c0] = b` -/
def setEntry (T : Tab) (r0 c0 : Nat) (b : Bool) : Tab := fun r c =>
  if r = r0 ∧ c = c0 then b else T r c

/-- `tableau[dst, :] = tableau[src, :]` -/
def copyRow (T : Tab) (dst src : Nat) : Tab := fun r c =>
  if r = dst then T src c else T r c

/-- `tableau[r0, :] = 0` -/
def zeroRow (T : Tab) (r0 : Nat) : Tab := fun r c =>
  if r = r0 then false else T r c

/-- `x[nqubits:, q].nonzero()[0] + nqubits` (source line 58): the
stabilizer rows (`n ≤ row < 2n`) whose X bit at qubit `q` is set, in
increasing order. -/
def stabNonzero (T : Tab) (q n : Nat) : List Nat :=
  (((List.range n).map fun j => n + j).filter fun r => T r q)

/-- `x[:, q].nonzero()[0]` (source lines 62 and 74): all generator rows
(`row < 2n`) whose X bit at qubit `q` is set, in increasing order;
evaluated on the array `x` viewed at the top of the loop body, before any
rebinding. -/
def genNonzero (T : Tab) (q n : Nat) : List Nat :=
  ((List.range (2 * n)).filter fun r => T r q)

namespace CliffordOperations

/-- The random-outcome branch of `M` (source lines 60-70): every generator
row `i ≠ p` with X bit set at `q` is replaced by `rowsum(state_copy, i, p)`
(each call rebinds `state_copy` to a fresh copy), then in-place writes
move row `p` into row `p - n` and install `± Z_q` in row `p` with the
sampled phase bit. -/
def mRandom (s : MSt) (q n p : Nat) (rows : List Nat) (outcome : Bool) : MSt :=
  let s1 := rows.foldl
    (fun st i =>
      if ¬(i = p) then rebind st (rowsum st.working i p n false) else st) s
  let s2 := inplace s1 fun T => copyRow T (p - n) p
  let s3 := inplace s2 fun T => zeroRow T p
  let s4 := inplace s3 fun T => setEntry T p (2 * n) outcome
  inplace s4 fun T => setEntry T p (n + q) true

/-- The determined-outcome branch of `M` (source lines 72-81): zero the
scratch row in place, then for every generator row `i` with X bit set at
`q`, rebind `state_copy` to
`rowsum(state_copy, 2n, i + n, include_scratch=True)`. -/
def mDet (s : MSt) (n : Nat) (rows : List Nat) : MSt :=
  let s1 := inplace s fun T => zeroRow T (2 * n)
  rows.foldl (fun st i => rebind st (rowsum st.working (2 * n) (i + n) n true)) s1

/-- One iteration of the measurement loop for qubit `q` (source lines
56-82).  The random draw `np.random.randint(2)` is modelled by consuming
the head of the provided bit stream `rnd`; the result is the updated
variable state, the appended sample bit, and the remaining stream.  In the
determined branch the sample is `get_scratch(state_copy)[-1]`, the phase
bit of the scratch row of the (possibly rebound) working array. -/
def mStep (s : MSt) (q n : Nat) (rnd : List Bool) : MSt × Bool × List Bool :=
  match stabNonzero s.working q n with
  | [] =>
      let s1 := mDet s n (genNonzero s.working q n)
      (s1, s1.working (2 * n) (2 * n), rnd)
  | p :: _ =>
      let outcome := rnd.headD false
      (mRandom s q n p (genNonzero s.working q n) outcome, outcome, rnd.tail)

/-- The `for q in qubits` loop of `M`: samples are appended in the order
the qubits are listed, each measured against the current working state. -/
def Mloop (s : MSt) (qubits : List Nat) (n : Nat) (rnd : List Bool) :
    MSt × List Bool :=
  match qubits with
  | [] => (s, [])
  | q :: qs =>
      let step := mStep s q n rnd
      let rest := Mloop step.1 qs n step.2.2
      (rest.1, step.2.1 :: rest.2)

/-- `state_copy = state if collapse else state.copy()` (source line 55). -/
def initSt (T : Tab) (collapse : Bool) : MSt :=
  if collapse then ⟨T, T, true⟩ else ⟨T, T, false⟩

/-- `M(state, qubits, nqubits, collapse)` (source lines 53-83), as explicit
state passing: the result carries the final variable state (working array,
content of the array of the caller, alias flag) together with the returned `sample`
list. -/
def M (T : Tab) (qubits : List Nat) (n : Nat) (collapse : Bool)
    (rnd : List Bool) : MSt × List Bool :=
  Mloop (initSt T collapse) qubits n rnd

end CliffordOperations

theorem Mloop_length (s : MSt) (qubits : List Nat) (n : Nat) (rnd : List Bool) :
    (CliffordOperations.Mloop s qubits n rnd).2.length = qubits.length := by
  induction qubits generalizing s rnd with
  | nil => rfl
  | cons q qs ih =>
      unfold CliffordOperations.Mloop
      simp only [List.length_cons]
      rw [ih]

/-- C1: the measurement entry point, embedded with explicit state passing,
returns the pair of the possibly-updated tableau state and the list of
classical outcome bits; that list has exactly one bit per requested qubit,
and the bit in position of qubit `q` is the outcome of measuring `q`
against the tableau state current at that point of the loop (head
decomposition), so the bits are in the order the qubits were listed. -/
theorem M_sample_shape (T : Tab) (q : Nat) (qs qubits : List Nat) (n : Nat)
    (collapse : Bool) (rnd : List Bool) :
    (CliffordOperations.M T [] n collapse rnd).2 = [] ∧
    (CliffordOperations.M T qubits n collapse rnd).2.length = qubits.length ∧
    (CliffordOperations.M T (q :: qs) n collapse rnd).2 =
      (CliffordOperations.mStep (CliffordOperations.initSt T collapse) q n rnd).2.1 ::
        (CliffordOperations.Mloop
          (CliffordOperations.mStep (CliffordOperations.initSt T collapse) q n rnd).1
          qs n
          (CliffordOperations.mStep
            (CliffordOperations.initSt T collapse) q n rnd).2.2).2 :=
  ⟨rfl, Mloop_length _ qubits n rnd, rfl⟩

theorem stabNonzero_zeroTab (n q : Nat) (hq : q < n) :
    stabNonzero (zeroTab n) q n = [] := by
  unfold stabNonzero
  rw [List.filter_eq_nil_iff]
  intro a ha
  obtain ⟨j, hj, rfl⟩ := List.mem_map.mp ha
  have hjn : j < n := List.mem_range.mp hj
  simp only [zeroTab, decide_eq_true_eq, not_and]
  omega

theorem filter_range_single (p : Nat → Bool) (m q : Nat) (hq : q < m)
    (hp : ∀ r, r < m → (p r = true ↔ r = q)) :
    (List.range m).filter p = [q] := by
  induction m with
  | zero => omega
  | succ m ih =>
      rw [List.range_succ, List.filter_append]
      by_cases hqm : q = m
      · have h1 : (List.range m).filter p = [] := by
          rw [List.filter_eq_nil_iff]
          intro a ha
          have ham : a < m := List.mem_range.mp ha
          intro hpa
          have := (hp a (by omega)).mp hpa
          omega
        have h2 : p m = true := (hp m (by omega)).mpr hqm.symm
        rw [h1, hqm]
        simp [h2]
      · have h2 : p m = false := by
          rcases Bool.eq_false_or_eq_true (p m) with h | h
          · exact absurd ((hp m (by omega)).mp h) (fun he => hqm he.symm)
          · exact h
        rw [ih (by omega) fun r hr => hp r (by omega)]
        simp [h2]

theorem genNonzero_zeroTab (n q : Nat) (hq : q < n) :
    genNonzero (zeroTab n) q n = [q] := by
  unfold genNonzero
  refine filter_range_single _ (2 * n) q (by omega) fun r hr => ?_
  simp only [zeroTab, decide_eq_true_eq]
  constructor
  · exact fun h => h.1
  · intro h
    exact ⟨h, by omega⟩

theorem zeroRow_zeroTab (n : Nat) : zeroRow (zeroTab n) (2 * n) = zeroTab n := by
  funext r c
  unfold zeroRow
  by_cases hr : r = 2 * n
  · subst hr
    simp only [if_pos rfl, zeroTab]
    have : ¬(2 * n = c ∧ 2 * n < 2 * n) := by omega
    exact (decide_eq_false this).symm
  · rw [if_neg hr]

theorem exponent_x_false (z1 : Bool) :
    CliffordOperations.exponent false z1 false false = 0 := by
  cases z1 <;> decide

theorem rowsum_scratch_phase_zeroTab (n q : Nat) (hq : q < n) :
    CliffordOperations.rowsum (zeroTab n) (2 * n) (q + n) n true (2 * n) (2 * n)
      = false := by
  have hn1 : ¬(2 * n < n) := by omega
  have hn2 : ¬(2 * n < 2 * n) := by omega
  unfold CliffordOperations.rowsum
  rw [if_pos rfl, if_neg hn1, if_neg hn2, if_pos rfl]
  have hphase : CliffordOperations.rowsumPhase (zeroTab n) (2 * n) (q + n) n = 0 := by
    unfold CliffordOperations.rowsumPhase
    have h1 : zeroTab n (2 * n) (2 * n) = false := by
      simp only [zeroTab]
      exact decide_eq_false (by omega)
    have h2 : zeroTab n (q + n) (2 * n) = false := by
      simp only [zeroTab]
      exact decide_eq_false (by omega)
    have h3 : (Finset.range n).sum (fun j =>
        CliffordOperations.exponent (zeroTab n (q + n) j) (zeroTab n (q + n) (n + j))
          (zeroTab n (2 * n) j) (zeroTab n (2 * n) (n + j))) = 0 := by
      refine Finset.sum_eq_zero fun j hj => ?_
      have hjn : j < n := Finset.mem_range.mp hj
      have hx1 : zeroTab n (q + n) j = false := by
        simp only [zeroTab]
        exact decide_eq_false (by omega)
      have hx2 : zeroTab n (2 * n) j = false := by
        simp only [zeroTab]
        exact decide_eq_false (by omega)
      have hz2 : zeroTab n (2 * n) (n + j) = false := by
        simp only [zeroTab]
        exact decide_eq_false (by omega)
      rw [hx1, hx2, hz2, exponent_x_false]
    rw [h1, h2, h3]
    decide
  rw [hphase]
  decide

theorem mStep_zeroTab (n q : Nat) (collapse : Bool) (rnd : List Bool) (hq : q < n) :
    CliffordOperations.mStep (CliffordOperations.initSt (zeroTab n) collapse) q n rnd =
      (⟨CliffordOperations.rowsum (zeroTab n) (2 * n) (q + n) n true, zeroTab n, false⟩,
       false, rnd) := by
  have e1 := stabNonzero_zeroTab n q hq
  have e2 := genNonzero_zeroTab n q hq
  have e3 := zeroRow_zeroTab n
  have e4 := rowsum_scratch_phase_zeroTab n q hq
  cases collapse <;>
    simp [CliffordOperations.mStep, CliffordOperations.initSt, CliffordOperations.mDet,
      inplace, rebind, e1, e2, e3, e4]

/-- C5: on the zero-state tableau, measuring any single in-range qubit with
`M` (either collapse setting) yields outcome 0, leaves the array of the caller
bit-for-bit unchanged, and leaves every generator row of the working state
unchanged (the working scratch row is the only thing the determined branch
writes). -/
theorem M_zero_state (n q : Nat) (collapse : Bool) (rnd : List Bool) (hq : q < n) :
    (CliffordOperations.M (zeroTab n) [q] n collapse rnd).2 = [false] ∧
    (CliffordOperations.M (zeroTab n) [q] n collapse rnd).1.caller = zeroTab n ∧
    ∀ r, r < 2 * n → ∀ c,
      (CliffordOperations.M (zeroTab n) [q] n collapse rnd).1.working r c
        = zeroTab n r c := by
  have hstep := mStep_zeroTab n q collapse rnd hq
  have hM : CliffordOperations.M (zeroTab n) [q] n collapse rnd =
      (⟨CliffordOperations.rowsum (zeroTab n) (2 * n) (q + n) n true, zeroTab n, false⟩,
       [false]) := by
    unfold CliffordOperations.M CliffordOperations.Mloop
    rw [hstep]
    rfl
  refine ⟨by rw [hM], by rw [hM], fun r hr c => ?_⟩
  rw [hM]
  show CliffordOperations.rowsum (zeroTab n) (2 * n) (q + n) n true r c = zeroTab n r c
  unfold CliffordOperations.rowsum
  rw [if_neg (by omega : ¬(r = 2 * n))]

/-- C5 witness: measuring qubit 0 of the 1-qubit zero state with
collapse on. -/
theorem M_zero_state_witness :
    (CliffordOperations.M (zeroTab 1) [0] 1 true []).2 = [false] ∧
    (CliffordOperations.M (zeroTab 1) [0] 1 true []).1.caller = zeroTab 1 ∧
    (CliffordOperations.M (zeroTab 1) [0] 1 true []).1.working 0 0 = zeroTab 1 0 0 :=
  ⟨(M_zero_state 1 0 true [] (by decide)).1,
   (M_zero_state 1 0 true [] (by decide)).2.1,
   (M_zero_state 1 0 true [] (by decide)).2.2 0 (by decide) 0⟩

theorem mRandom_foldl_caller (p n : Nat) (rows : List Nat) (s : MSt) :
    (rows.foldl
      (fun st i =>
        if ¬(i = p) then
          rebind st (CliffordOperations.rowsum st.working i p n false)
        else st) s).caller = s.caller := by
  induction rows generalizing s with
  | nil => rfl
  | cons a l ih =>
      rw [List.foldl_cons, ih]
      by_cases h : a = p <;> simp [h, rebind]

theorem mRandom_foldl_aliased_false (p n : Nat) (rows : List Nat) (s : MSt)
    (hs : s.aliased = false) :
    (rows.foldl
      (fun st i =>
        if ¬(i = p) then
          rebind st (CliffordOperations.rowsum st.working i p n false)
        else st) s).aliased = false := by
  induction rows generalizing s with
  | nil => exact hs
  | cons a l ih =>
      rw [List.foldl_cons]
      by_cases h : a = p
      · rw [if_neg (by simp [h])]
        exact ih s hs
      · rw [if_pos h]
        exact ih _ rfl

theorem mRandom_foldl_aliased (p n : Nat) (rows : List Nat) (s : MSt)
    (h : ∃ i ∈ rows, ¬(i = p)) :
    (rows.foldl
      (fun st i =>
        if ¬(i = p) then
          rebind st (CliffordOperations.rowsum st.working i p n false)
        else st) s).aliased = false := by
  induction rows generalizing s with
  | nil => exact absurd h (by simp)
  | cons a l ih =>
      rw [List.foldl_cons]
      by_cases hap : a = p
      · rw [if_neg (by simp [hap])]
        refine ih s ?_
        obtain ⟨i, hi, hip⟩ := h
        rcases List.mem_cons.mp hi with rfl | hil
        · exact absurd hap hip
        · exact ⟨i, hil, hip⟩
      · rw [if_pos hap]
        exact mRandom_foldl_aliased_false p n l _ rfl

theorem mDet_foldl_caller (n : Nat) (rows : List Nat) (s : MSt) :
    (rows.foldl
      (fun st i =>
        rebind st (CliffordOperations.rowsum st.working (2 * n) (i + n) n true))
      s).caller = s.caller := by
  induction rows generalizing s with
  | nil => rfl
  | cons a l ih =>
      rw [List.foldl_cons, ih]
      rfl

theorem nodup_all_eq_length_le_one {l : List Nat} {p : Nat}
    (hnd : l.Nodup) (hall : ∀ i ∈ l, i = p) : l.length ≤ 1 := by
  match l with
  | [] => simp
  | [a] => simp
  | a :: b :: t =>
      have ha : a = p := hall a (by simp)
      have hb : b = p := hall b (by simp)
      have : a ≠ b := by
        intro hab
        refine (List.nodup_cons.mp hnd).1 ?_
        rw [hab]
        exact List.mem_cons_self b t
      exact absurd (ha.trans hb.symm) this

theorem mStep_eq_det (s : MSt) (q n : Nat) (rnd : List Bool)
    (hs : stabNonzero s.working q n = []) :
    CliffordOperations.mStep s q n rnd =
      (CliffordOperations.mDet s n (genNonzero s.working q n),
       (CliffordOperations.mDet s n (genNonzero s.working q n)).working
         (2 * n) (2 * n),
       rnd) := by
  unfold CliffordOperations.mStep
  rw [hs]

theorem mStep_eq_random (s : MSt) (q n p : Nat) (l : List Nat) (rnd : List Bool)
    (hs : stabNonzero s.working q n = p :: l) :
    CliffordOperations.mStep s q n rnd =
      (CliffordOperations.mRandom s q n p (genNonzero s.working q n)
        (rnd.headD false),
       rnd.headD false, rnd.tail) := by
  unfold CliffordOperations.mStep
  rw [hs]

theorem mStep_det_caller_pt (T : Tab) (q n : Nat) (rnd : List Bool)
    (hdet : stabNonzero T q n = []) (r : Nat) (hr : ¬(r = 2 * n)) (c : Nat) :
    (CliffordOperations.mStep ⟨T, T, true⟩ q n rnd).1.caller r c = T r c := by
  rw [mStep_eq_det ⟨T, T, true⟩ q n rnd hdet]
  show (CliffordOperations.mDet ⟨T, T, true⟩ n (genNonzero T q n)).caller r c = T r c
  unfold CliffordOperations.mDet
  rw [mDet_foldl_caller]
  show zeroRow T (2 * n) r c = T r c
  unfold zeroRow
  rw [if_neg hr]

theorem genNonzero_nodup (T : Tab) (q n : Nat) : (genNonzero T q n).Nodup :=
  (List.nodup_range (2 * n)).filter _

theorem exists_ne_of_two_le_length {l : List Nat} {p : Nat} (hnd : l.Nodup)
    (hlen : 2 ≤ l.length) : ∃ i ∈ l, ¬(i = p) := by
  by_contra hcon
  push_neg at hcon
  have := nodup_all_eq_length_le_one hnd hcon
  omega

theorem mRandom_caller_of_multi (T : Tab) (q n p : Nat) (rows : List Nat)
    (outcome : Bool) (hmem : ∃ i ∈ rows, ¬(i = p)) :
    (CliffordOperations.mRandom ⟨T, T, true⟩ q n p rows outcome).caller = T := by
  unfold CliffordOperations.mRandom
  have hc := mRandom_foldl_caller p n rows ⟨T, T, true⟩
  have ha := mRandom_foldl_aliased p n rows ⟨T, T, true⟩ hmem
  simp only [inplace, ha, if_false, Bool.false_eq_true]
  exact hc

/-- C10: for a single-qubit in-place measurement call with collapse on, the
generator rows of the caller (rows below `2n`) are bit-for-bit unchanged
whenever the outcome is determined (no stabilizer row anticommutes) or the
random branch performs at least one rowsum (some second generator row has
its X bit set at `q`, so the fresh copy returned by rowsum replaces the
working reference before any in-place write). -/
theorem M_collapse_frame (T : Tab) (q n : Nat) (rnd : List Bool)
    (hcase : stabNonzero T q n = [] ∨ 2 ≤ (genNonzero T q n).length) :
    ∀ r, r < 2 * n → ∀ c,
      (CliffordOperations.M T [q] n true rnd).1.caller r c = T r c := by
  intro r hr c
  have hM1 : (CliffordOperations.M T [q] n true rnd).1 =
      (CliffordOperations.mStep ⟨T, T, true⟩ q n rnd).1 := rfl
  rw [hM1]
  have hrne : ¬(r = 2 * n) := by omega
  cases hcase with
  | inl hdet => exact mStep_det_caller_pt T q n rnd hdet r hrne c
  | inr hlen =>
      cases hs : stabNonzero T q n with
      | nil => exact mStep_det_caller_pt T q n rnd hs r hrne c
      | cons p l =>
          rw [mStep_eq_random ⟨T, T, true⟩ q n p l rnd hs]
          show (CliffordOperations.mRandom ⟨T, T, true⟩ q n p (genNonzero T q n)
            (rnd.headD false)).caller r c = T r c
          rw [mRandom_caller_of_multi T q n p (genNonzero T q n) (rnd.headD false)
            (exists_ne_of_two_le_length (genNonzero_nodup T q n) hlen)]

/-- C10 witness: the determined case on the 1-qubit zero tableau. -/
theorem M_collapse_frame_witness :
    (CliffordOperations.M (zeroTab 1) [0] 1 true []).1.caller 1 2 = zeroTab 1 1 2 :=
  M_collapse_frame (zeroTab 1) 0 1 [] (Or.inl (by decide)) 1 (by decide) 2

/-- The single-qubit Pauli tags produced by the decoder (the gate objects
`gates.I/X/Y/Z` of the source, reduced to their identity). -/
inductive Pauli
  | I
  | X
  | Y
  | Z
deriving DecidableEq

/-- The literal dict of the source (line 164):
`{"00": I, "01": X, "10": Z, "11": Y}`, keyed by the two-character string
`f"{zz}{xx}"` — the Z bit first, then the X bit. -/
def bits_to_gate (zz xx : Bool) : Pauli :=
  match zz, xx with
  | false, false => Pauli.I
  | false, true => Pauli.X
  | true, false => Pauli.Z
  | true, true => Pauli.Y

/-- The imaginary unit; `1j ** r` of the source is modelled exactly in the
Gaussian integers. -/
def gi : GaussianInt := ⟨0, 1⟩

/-- `tableau_to_generators(tableau, return_array=False)` (source lines
161-182, symbolic branch): for each stabilizer row `n + k` (`k < n`,
numpy slice `[nqubits:-1]`), the phase `1j ** r` and the per-qubit letters
`bits_to_gate[f"{zz}{xx}"]` where `zz` is the Z bit (column `n + j`) and
`xx` the X bit (column `j`).  The qubit count `n` is passed in; the source
derives it as `int((shape - 1)/2)` (see `nqubits`). -/
def tableau_to_generators (T : Tab) (n : Nat) :
    List (List Pauli) × List GaussianInt :=
  ((List.range n).map fun k =>
      (List.range n).map fun j => bits_to_gate (T (n + k) (n + j)) (T (n + k) j),
   (List.range n).map fun k =>
      gi ^ (if T (n + k) (2 * n) then 1 else 0 : Nat))

/-- The per-qubit letter lookup exactly as claim C6 words it: the bit pair
`(x, z)` under the mapping 00 to I, 01 to X, 10 to Z, 11 to Y. -/
def claimLetter (x z : Bool) : Pauli :=
  match x, z with
  | false, false => Pauli.I
  | false, true => Pauli.X
  | true, false => Pauli.Z
  | true, true => Pauli.Y

/-- C6 counterexample: on the 1-qubit zero tableau the stabilizer row has
bit pair `(x, z) = (0, 1)` at qubit 0; the decoder produces the letter Z
(the dict key is the string with the Z bit first), while the claimed
`(x, z)` mapping sends 01 to X. -/
theorem tableau_to_generators_letter_cex :
    zeroTab 1 1 0 = false ∧ zeroTab 1 1 1 = true ∧
    ((tableau_to_generators (zeroTab 1) 1).1.headD []).headD Pauli.I = Pauli.Z ∧
    claimLetter (zeroTab 1 1 0) (zeroTab 1 1 1) = Pauli.X ∧
    ¬(Pauli.Z = Pauli.X) := by
  decide

theorem getD_map_range {α : Type} (f : Nat → α) (d : α) (n k : Nat) (hk : k < n) :
    ((List.range n).map f).getD k d = f k := by
  simp [List.getD_eq_getElem?_getD, List.getElem?_map, List.getElem?_range, hk]

/-- C6 (amended): the decoder returns one generator and one phase per
stabilizer row; the phase of row `n + k` is `i ^ r` with `r` the phase bit
of that row, and the letter at qubit `j` is the fixed mapping applied to the
pair `(z, x)` — Z bit first — i.e. `(x,z) = (0,0)` gives I, `(1,0)` gives
X, `(0,1)` gives Z, `(1,1)` gives Y.  The embedding is a pure function of
the tableau, which is read but never written. -/
theorem tableau_to_generators_spec (T : Tab) (n k j : Nat) (hk : k < n)
    (hj : j < n) :
    (tableau_to_generators T n).1.length = n ∧
    (tableau_to_generators T n).2.length = n ∧
    ((tableau_to_generators T n).1.getD k []).getD j Pauli.I
      = bits_to_gate (T (n + k) (n + j)) (T (n + k) j) ∧
    (tableau_to_generators T n).2.getD k 0
      = gi ^ (if T (n + k) (2 * n) then 1 else 0 : Nat) := by
  refine ⟨?_, ?_, ?_, ?_⟩
  · simp [tableau_to_generators]
  · simp [tableau_to_generators]
  · show (((List.range n).map fun k =>
        (List.range n).map fun j =>
          bits_to_gate (T (n + k) (n + j)) (T (n + k) j)).getD k []).getD j Pauli.I
      = bits_to_gate (T (n + k) (n + j)) (T (n + k) j)
    rw [getD_map_range _ _ _ _ hk, getD_map_range _ _ _ _ hj]
  · show ((List.range n).map fun k =>
        gi ^ (if T (n + k) (2 * n) then 1 else 0 : Nat)).getD k 0
      = gi ^ (if T (n + k) (2 * n) then 1 else 0 : Nat)
    rw [getD_map_range _ _ _ _ hk]

/-- C6 witness: the amended decoding at the 1-qubit zero tableau. -/
theorem tableau_to_generators_spec_witness :
    (tableau_to_generators (zeroTab 1) 1).1.length = 1 ∧
    (tableau_to_generators (zeroTab 1) 1).2.length = 1 ∧
    ((tableau_to_generators (zeroTab 1) 1).1.getD 0 []).getD 0 Pauli.I
      = bits_to_gate (zeroTab 1 (1 + 0) (1 + 0)) (zeroTab 1 (1 + 0) 0) ∧
    (tableau_to_generators (zeroTab 1) 1).2.getD 0 0
      = gi ^ (if zeroTab 1 (1 + 0) (2 * 1) then 1 else 0 : Nat) :=
  tableau_to_generators_spec (zeroTab 1) 1 0 0 (by decide) (by decide)

/-- The 2×2 matrix of each single-qubit gate object, as a flat row-major
list (the dense representations of `gates.I/X/Y/Z`, external to this
module; the standard Pauli matrices). -/
def pmatFlat : Pauli → List GaussianInt
  | Pauli.I => [1, 0, 0, 1]
  | Pauli.X => [0, 1, 1, 0]
  | Pauli.Y => [0, -gi, gi, 0]
  | Pauli.Z => [1, 0, 0, -1]

/-- `np.tensordot(A, B, axes=0)` of the source (line 178) followed by the
final C-order flattening: the outer product of the two flattened operands,
entry at flat position `ia * len(b) + ib` equal to `a[ia] * b[ib]`. -/
def tdflat (a b : List GaussianInt) : List GaussianInt :=
  ((a.map fun u => b.map fun v => u * v)).flatten

/-- The `return_array=True` accumulation of the source (lines 175-179):
start from the first Pauli matrix and fold `tensordot(..., axes=0)` over
the remaining qubits, then `reshape(2**n, 2**n)` — which in C order is the
flat list itself, read as a `2^n × 2^n` matrix with entry `(r, c)` at flat
position `r * 2^n + c`. -/
def denseFromPaulis (ps : List Pauli) : List GaussianInt :=
  match ps with
  | [] => []
  | p :: rest => rest.foldl (fun m p2 => tdflat m (pmatFlat p2)) (pmatFlat p)

/-- The array branch of `tableau_to_generators` (`return_array=True`): each
decoded generator row materialized by `denseFromPaulis`. -/
def tableau_to_generators_array (T : Tab) (n : Nat) : List (List GaussianInt) :=
  (List.range n).map fun k =>
    denseFromPaulis
      ((List.range n).map fun j => bits_to_gate (T (n + k) (n + j)) (T (n + k) j))

/-- Modelled from the spec: the row-major Kronecker product of a `da × da`
and a `db × db` matrix given as flat row-major lists; entry
`(i*db + k, j*db + l)` is `a[i,j] * b[k,l]`. -/
def kronFlat (a : List GaussianInt) (da : Nat) (b : List GaussianInt) (db : Nat) :
    List GaussianInt :=
  (((List.range (da * db)).map fun r =>
      (List.range (da * db)).map fun c =>
        a.getD ((r / db) * da + c / db) 0 *
          b.getD ((r % db) * db + c % db) 0)).flatten

/-- Modelled from the spec: the dense matrix of a Pauli string as the
repeated Kronecker product of the per-qubit matrices, left to right in
qubit-index order. -/
def kronOfPaulis (ps : List Pauli) : List GaussianInt :=
  match ps with
  | [] => []
  | p :: rest =>
      (rest.foldl (fun m p2 => (kronFlat m.1 m.2 (pmatFlat p2) 2, m.2 * 2))
        (pmatFlat p, 2)).1

/-- C7 evaluation at the failing input: on the 2-qubit zero tableau the
first decoded stabilizer generator is the string Z I, but the dense matrix
the code builds is the reshaped outer product, which differs from the
Kronecker product Z ⊗ I: e.g. at row 0, column 3 the code produces 1 where
Z ⊗ I has 0 (the row index used by the code interleaves the row and column bits of
the first factor).  No error is raised; the malformed matrix is returned. -/
theorem tableau_to_generators_array_not_kron :
    (tableau_to_generators (zeroTab 2) 2).1.getD 0 [] = [Pauli.Z, Pauli.I] ∧
    (tableau_to_generators_array (zeroTab 2) 2).getD 0 []
      = [1, 0, 0, 1,  0, 0, 0, 0,  0, 0, 0, 0,  -1, 0, 0, -1] ∧
    kronOfPaulis [Pauli.Z, Pauli.I]
      = [1, 0, 0, 0,  0, 1, 0, 0,  0, 0, -1, 0,  0, 0, 0, -1] ∧
    ¬((tableau_to_generators_array (zeroTab 2) 2).getD 0 []
        = kronOfPaulis ((tableau_to_generators (zeroTab 2) 2).1.getD 0 [])) ∧
    ((tableau_to_generators_array (zeroTab 2) 2).getD 0 []).getD 3 0 = 1 ∧
    (kronOfPaulis [Pauli.Z, Pauli.I]).getD 3 0 = 0 := by
  decide

/-- C9 evaluation at the failing input: a tableau of side length 4 is not
of the form `2n + 1`, yet the qubit-count derivation silently floors to
`int((4 - 1)/2) = 1` — the same value as for the well-formed side length 3
— and no error path exists in the source, so the engine and the decoder
(which inlines the same formula, source line 166) proceed with a wrong
qubit count. -/
theorem nqubits_silent_floor :
    CliffordOperations.nqubits 4 = 1 ∧
    CliffordOperations.nqubits 3 = 1 ∧
    ¬(2 * CliffordOperations.nqubits 4 + 1 = 4) := by
  decide

/-- The Python call `H(tableau, -1, nqubits)` with the negative index
`q = -1` (source lines 12-22), under numpy index resolution: on the
`n`-wide x and z views `-1` resolves to local column `n - 1`, so the phase
update XORs `x_{n-1} * z_{n-1}` (absolute columns `n - 1` and `2n - 1`);
in the full `(2n+1)`-wide row the pair `[q, nqubits + q]` resolves to
`[2n, n - 1]`, so the final swap exchanges the phase column `2n` with
column `n - 1` across all rows.  No exception is raised anywhere.  This
definition is the phase update of that call, before the column swap. -/
def HnegOnePhase (T : Tab) (n : Nat) : Tab := fun r c =>
  if r < 2 * n ∧ c = 2 * n then xor (T r c) (T r (n - 1) && T r (2 * n - 1))
  else T r c

/-- The column swap of the same call: `new_tab[:, [-1, nqubits - 1]]`
exchanged with `new_tab[:, [nqubits - 1, -1]]` across all rows, applied to
the phase-updated tableau. -/
def HnegOne (T : Tab) (n : Nat) : Tab := fun r c =>
  if c = 2 * n then HnegOnePhase T n r (n - 1)
  else if c = n - 1 then HnegOnePhase T n r (2 * n)
  else HnegOnePhase T n r c

/-- C8 evaluation at the failing input: `H` with the out-of-range index
`q = -1` on the 1-qubit zero tableau raises nothing; numpy wraps the index
and the call returns a normally-updated (and silently corrupted) tableau —
here the phase column has been swapped with the z column, moving the
stabilizer bit of row 1 into the former place of the phase column, leaving a
tableau different from the input. -/
theorem HnegOne_returns_wrapped :
    (fun r c : Fin 3 => HnegOne (zeroTab 1) 1 r.val c.val)
      = (fun r c : Fin 3 =>
          decide ((r.val = 0 ∧ c.val = 2) ∨ (r.val = 1 ∧ c.val = 1))) ∧
    HnegOne (zeroTab 1) 1 0 2 = true ∧
    zeroTab 1 0 2 = false := by
  refine ⟨?_, by decide, by decide⟩
  funext r c
  fin_cases r <;> fin_cases c <;> decide
